import Mathlib

/-!
Verification of the toy blockchain ledger engine.

Shallow embedding of the core of the repository, translated from
the Rust sources:
  - the data model and all ledger operations come from src/block_chain.rs
    (struct BlockChain, fn try_mining, fn transfer, fn can_transfer,
     fn transfer_between_accounts);
  - the miner loop and the Transaction type come from src/main.rs
    (enum Transaction, struct TransactionTransfer, fn start_node).

Modelling conventions:
  - the Rust HashMap over String keys is modelled as an association list
    with HashMap semantics: lookupAcc models HashMap get and contains_key,
    insertAcc models HashMap insert (replacing the value when the key is
    already present);
  - u64 balances are modelled as Nat with an explicit modulus U64MOD = 2^64
    at the one addition that can overflow (the receiver credit) and at the
    one subtraction that can wrap (the second sender debit in the
    unreachable error branch of transfer_between_accounts).  The first
    sender debit is guarded by the balance comparison, so plain Nat
    subtraction is exact there;
  - Instant and Duration are modelled as Nat time stamps in one common,
    unspecified unit; Instant.duration_since is saturating Nat subtraction;
  - the format strings sent back to callers are modelled by the inductive
    type Reply (one constructor per distinct format string of the source),
    and the three error messages of fn can_transfer by TransferErr
    (missingSender, insufficientFunds and missingReceiver name the three
    distinct messages of the source in source order);
  - one call of try_mining takes the list of transactions currently ready
    in the channel (the queue drained by the try_recv loop) plus the two
    Instant.now readings of the call (at entry, and after mining when the
    last mining time is reset).
-/

/-- u64 wraparound modulus, 2 ^ 64. -/
def U64MOD : Nat := 18446744073709551616

/-- struct TransactionTransfer of src/main.rs. -/
structure TransactionTransfer where
  sender : String
  receiver : String
  balance : Nat
deriving DecidableEq, Repr

/-- enum Transaction of src/main.rs. -/
inductive Transaction where
  | CreateAccount (name : String) (balance : Nat)
  | Transfer (t : TransactionTransfer)
  | Balance (name : String)
deriving DecidableEq, Repr

/-- The three distinct error messages of fn can_transfer, in source
order: missing sender account, insufficient funds, missing receiver
account. -/
inductive TransferErr where
  | missingSender
  | insufficientFunds
  | missingReceiver
deriving DecidableEq, Repr

/-- The distinct reply strings the miner loop sends on the reply
channel, one constructor per format string of fn try_mining. -/
inductive Reply where
  | balanceOf (name : String) (val : Nat)
  | noAccount (name : String)
  | created (name : String) (balance : Nat)
  | alreadyExisting (name : String) (oldBalance : Nat)
  | willAdd (t : TransactionTransfer)
  | rejected (e : TransferErr)
deriving DecidableEq, Repr

/-- The message returned by fn transfer at commit time: the
can_transfer rejection, the failure message of
transfer_between_accounts, or the success message. -/
inductive CommitMsg where
  | rejected (e : TransferErr)
  | failed
  | success
deriving DecidableEq, Repr

deriving instance DecidableEq for Except

/-- The accounts HashMap of struct BlockChain, as an association list. -/
abbrev Accounts := List (String × Nat)

/-- HashMap get / contains_key. -/
def lookupAcc : Accounts → String → Option Nat
  | [], _ => none
  | (k, v) :: rest, name => if k = name then some v else lookupAcc rest name

/-- HashMap insert: replaces the value when the key is present,
appends a fresh entry otherwise. -/
def insertAcc : Accounts → String → Nat → Accounts
  | [], name, val => [(name, val)]
  | (k, v) :: rest, name, val =>
    if k = name then (k, val) :: rest else (k, v) :: insertAcc rest name val

/-- struct Block of src/block_chain.rs. -/
structure Block where
  current_block_num : Nat
  transactions : List Transaction
deriving DecidableEq, Repr

/-- struct BlockChain of src/block_chain.rs.  Instants are Nat time
stamps. -/
structure BlockChain where
  node_start_instant : Nat
  duration_between_blocks : Nat
  last_mining_time : Nat
  blocks : List Block
  accounts : Accounts
deriving DecidableEq, Repr

/-- BlockChain::new: both Instant.now readings at construction are the
single stamp now; duration_between_blocks is block_time expressed in
the common time unit. -/
def BlockChain.new (block_time : Nat) (now : Nat) : BlockChain :=
  { node_start_instant := now
    duration_between_blocks := block_time
    last_mining_time := now
    blocks := []
    accounts := [] }

/-- fn can_transfer of src/block_chain.rs: sender lookup first, then
the balance comparison, then the receiver contains_key check. -/
def can_transfer (accounts : Accounts) (transfer : TransactionTransfer) :
    Except TransferErr Unit :=
  match lookupAcc accounts transfer.sender with
  | some sender_balance =>
    if transfer.balance ≤ sender_balance then
      if (lookupAcc accounts transfer.receiver).isSome then
        Except.ok ()
      else
        Except.error TransferErr.missingReceiver
    else
      Except.error TransferErr.insufficientFunds
  | none => Except.error TransferErr.missingSender

/-- fn transfer_between_accounts of src/block_chain.rs.  Returns the
possibly mutated accounts map together with true for Ok and false for
Err.  The receiver credit is u64 addition, hence the modulus; in the
Err branch the sender is debited a second time with u64 wrapping
subtraction (the release-mode semantics of the unguarded sub). -/
def transfer_between_accounts (accounts : Accounts) (t : TransactionTransfer) :
    Accounts × Bool :=
  match lookupAcc accounts t.sender with
  | some sender_balance =>
    if t.balance ≤ sender_balance then
      let accounts1 := insertAcc accounts t.sender (sender_balance - t.balance)
      match lookupAcc accounts1 t.receiver with
      | some receiver_balance =>
        (insertAcc accounts1 t.receiver ((receiver_balance + t.balance) % U64MOD), true)
      | none =>
        let s1 := (lookupAcc accounts1 t.sender).getD 0
        (insertAcc accounts1 t.sender ((s1 + (U64MOD - t.balance % U64MOD)) % U64MOD), false)
    else (accounts, false)
  | none => (accounts, false)

/-- fn transfer of src/block_chain.rs (the commit step): self.accounts
is the first component, block.transactions the second.  The early
return keeps both unchanged; on success the transaction is pushed into
the block. -/
def transfer (accounts : Accounts) (blockTxs : List Transaction)
    (transaction : TransactionTransfer) :
    Accounts × List Transaction × CommitMsg :=
  match can_transfer accounts transaction with
  | Except.error e => (accounts, blockTxs, CommitMsg.rejected e)
  | Except.ok _ =>
    let r := transfer_between_accounts accounts transaction
    if r.2 then
      (r.1, blockTxs ++ [Transaction.Transfer transaction], CommitMsg.success)
    else
      (r.1, blockTxs, CommitMsg.failed)

/-- The transfers.iter().for_each loop of fn try_mining: commits each
pending transfer in admission order, threading accounts and the block
transaction list; the returned message is discarded as in the source. -/
def commitPending (accounts : Accounts) (blockTxs : List Transaction) :
    List TransactionTransfer → Accounts × List Transaction
  | [] => (accounts, blockTxs)
  | t :: rest =>
    let r := transfer accounts blockTxs t
    commitPending r.1 r.2.1 rest

/-- One arm of the match in the try_recv drain loop of fn try_mining:
the immediate effect of one drained transaction on the accounts and
the pending transfer list, together with the reply sent on msg_tx. -/
def processTransaction (accounts : Accounts) (transfers : List TransactionTransfer) :
    Transaction → Accounts × List TransactionTransfer × Reply
  | Transaction.Balance name =>
    (accounts, transfers,
      match lookupAcc accounts name with
      | some val => Reply.balanceOf name val
      | none => Reply.noAccount name)
  | Transaction.CreateAccount name balance =>
    let old := lookupAcc accounts name
    let accounts1 := insertAcc accounts name balance
    (accounts1, transfers,
      match old with
      | none => Reply.created name ((lookupAcc accounts1 name).getD 0)
      | some oldBalance => Reply.alreadyExisting name oldBalance)
  | Transaction.Transfer t =>
    match can_transfer accounts t with
    | Except.ok _ => (accounts, transfers ++ [t], Reply.willAdd t)
    | Except.error e => (accounts, transfers, Reply.rejected e)

/-- The while try_recv loop of fn try_mining over the list of
transactions currently ready in the channel, collecting the replies in
order. -/
def drainQueue (accounts : Accounts) (transfers : List TransactionTransfer) :
    List Transaction → Accounts × List TransactionTransfer × List Reply
  | [] => (accounts, transfers, [])
  | tx :: rest =>
    let r := processTransaction accounts transfers tx
    let rr := drainQueue r.1 r.2.1 rest
    (rr.1, rr.2.1, r.2.2 :: rr.2.2)

/-- fn try_mining of src/block_chain.rs.  current_time is the
Instant.now reading at entry, after_mining_time the Instant.now
reading used to reset last_mining_time after a block is pushed.  The
block number is the block log length at entry; the mining condition is
the strict Duration comparison of the source; the pending transfer
list is returned as the source leaves it (it is never cleared). -/
def try_mining (bc : BlockChain) (current_time after_mining_time : Nat)
    (queue : List Transaction) (transfers : List TransactionTransfer) :
    BlockChain × List TransactionTransfer × List Reply :=
  let blockNum := bc.blocks.length
  let d := drainQueue bc.accounts transfers queue
  if bc.duration_between_blocks < current_time - bc.last_mining_time then
    let c := commitPending d.1 [] d.2.1
    ({ bc with
        accounts := c.1
        blocks := bc.blocks ++ [{ current_block_num := blockNum, transactions := c.2 }]
        last_mining_time := after_mining_time },
     d.2.1, d.2.2)
  else
    ({ bc with accounts := d.1 }, d.2.1, d.2.2)

/-- One iteration of the miner loop of fn start_node: the transactions
ready in the channel during this iteration and the two Instant.now
readings of the iteration. -/
structure IterInput where
  queue : List Transaction
  current_time : Nat
  after_mining_time : Nat
deriving DecidableEq, Repr

/-- The miner loop of fn start_node, run over a finite prefix of
iterations, collecting the reply lists of each iteration. -/
def runNode : BlockChain → List TransactionTransfer → List IterInput →
    BlockChain × List TransactionTransfer × List (List Reply)
  | bc, transfers, [] => (bc, transfers, [])
  | bc, transfers, input :: rest =>
    let r := try_mining bc input.current_time input.after_mining_time input.queue transfers
    let rr := runNode r.1 r.2.1 rest
    (rr.1, rr.2.1, r.2.2 :: rr.2.2)

/-! ### Flow accounting and trace bookkeeping -/

/-- Current balance of an account name, 0 when absent. -/
def bal (accounts : Accounts) (a : String) : Nat := (lookupAcc accounts a).getD 0

/-- Total amount transferred to a by the transfers recorded in a block
transaction list. -/
def txFlowIn (a : String) : List Transaction → Nat
  | [] => 0
  | Transaction.Transfer t :: rest =>
    (if t.receiver = a then t.balance else 0) + txFlowIn a rest
  | _ :: rest => txFlowIn a rest

/-- Total amount transferred out of a by the transfers recorded in a
block transaction list. -/
def txFlowOut (a : String) : List Transaction → Nat
  | [] => 0
  | Transaction.Transfer t :: rest =>
    (if t.sender = a then t.balance else 0) + txFlowOut a rest
  | _ :: rest => txFlowOut a rest

/-- Total committed inflow of a over a block log. -/
def blocksFlowIn (a : String) : List Block → Nat
  | [] => 0
  | b :: rest => txFlowIn a b.transactions + blocksFlowIn a rest

/-- Total committed outflow of a over a block log. -/
def blocksFlowOut (a : String) : List Block → Nat
  | [] => 0
  | b :: rest => txFlowOut a b.transactions + blocksFlowOut a rest

/-- Sum of the initial balances handed to CreateAccount operations for
the name a in one queue. -/
def queueCreateSum (a : String) : List Transaction → Nat
  | [] => 0
  | Transaction.CreateAccount name balance :: rest =>
    (if name = a then balance else 0) + queueCreateSum a rest
  | _ :: rest => queueCreateSum a rest

/-- The names targeted by the CreateAccount operations of one queue. -/
def queueCreateNames : List Transaction → List String
  | [] => []
  | Transaction.CreateAccount name _ :: rest => name :: queueCreateNames rest
  | _ :: rest => queueCreateNames rest

/-- Sum of the initial balances handed to CreateAccount operations for
the name a over a whole run. -/
def traceCreateSum (a : String) : List IterInput → Nat
  | [] => 0
  | input :: rest => queueCreateSum a input.queue + traceCreateSum a rest

/-- The names targeted by CreateAccount operations over a whole run. -/
def traceCreateNames : List IterInput → List String
  | [] => []
  | input :: rest => queueCreateNames input.queue ++ traceCreateNames rest

/-! ### Concrete inputs used by individual claims -/

/-- C1 failing input: a transfer of 100 out of a 1000 balance, then two
elapsed block boundaries with nothing new queued. -/
def tC1 : TransactionTransfer := { sender := "alice", receiver := "bob", balance := 100 }

def traceC1 : List IterInput :=
  [ { queue := [Transaction.CreateAccount "alice" 1000,
                Transaction.CreateAccount "bob" 100,
                Transaction.Transfer tC1],
      current_time := 0, after_mining_time := 0 },
    { queue := [], current_time := 2, after_mining_time := 2 },
    { queue := [], current_time := 4, after_mining_time := 4 } ]

/-- C3 failing input: tC3a drains alice so tC3b fails commit-time
validation at the first boundary; tC3c later refills alice, after
which the still-pending tC3b commits. -/
def tC3a : TransactionTransfer := { sender := "alice", receiver := "bob", balance := 601 }

def tC3b : TransactionTransfer := { sender := "alice", receiver := "carol", balance := 600 }

def tC3c : TransactionTransfer := { sender := "bob", receiver := "alice", balance := 201 }

def traceC3 : List IterInput :=
  [ { queue := [Transaction.CreateAccount "alice" 1000,
                Transaction.CreateAccount "bob" 0,
                Transaction.CreateAccount "carol" 0,
                Transaction.Transfer tC3a,
                Transaction.Transfer tC3b],
      current_time := 2, after_mining_time := 2 },
    { queue := [Transaction.Transfer tC3c], current_time := 4, after_mining_time := 4 },
    { queue := [], current_time := 6, after_mining_time := 6 } ]

/-- C5 input state: alice at 1000, bob and carol existing, one block
interval of 1 already elapsed at time 2. -/
def bcC5 : BlockChain :=
  { node_start_instant := 0
    duration_between_blocks := 1
    last_mining_time := 0
    blocks := []
    accounts := [("alice", 1000), ("bob", 0), ("carol", 0)] }

def tC5bob : TransactionTransfer := { sender := "alice", receiver := "bob", balance := 600 }

def tC5carol : TransactionTransfer := { sender := "alice", receiver := "carol", balance := 600 }

/-- C7 counterexample state: interval 10, last block at time 0. -/
def bcC7 : BlockChain :=
  { node_start_instant := 0
    duration_between_blocks := 10
    last_mining_time := 0
    blocks := []
    accounts := [] }

/-- The admission check as the amended C6 claim orders it: unknown
sender first, then insufficient funds, then unknown receiver.  Written
from the amended wording, to be compared against can_transfer. -/
def can_transfer_amended (accounts : Accounts) (t : TransactionTransfer) :
    Except TransferErr Unit :=
  if (lookupAcc accounts t.sender).isNone then
    Except.error TransferErr.missingSender
  else if (lookupAcc accounts t.sender).getD 0 < t.balance then
    Except.error TransferErr.insufficientFunds
  else if (lookupAcc accounts t.receiver).isNone then
    Except.error TransferErr.missingReceiver
  else
    Except.ok ()

/-- C4 witness trace: two fresh creations and one transfer, committed
at the single elapsed boundary. -/
def traceC4w : List IterInput :=
  [ { queue := [Transaction.CreateAccount "alice" 5,
                Transaction.CreateAccount "bob" 3,
                Transaction.Transfer { sender := "alice", receiver := "bob", balance := 2 }],
      current_time := 2, after_mining_time := 2 } ]

/-- C4 counterexample traces: a second creation of an existing name,
and a receiver credit that wraps at 2 ^ 64. -/
def traceC4dup : List IterInput :=
  [ { queue := [Transaction.CreateAccount "alice" 5,
                Transaction.CreateAccount "alice" 7],
      current_time := 0, after_mining_time := 0 } ]

def traceC4ov : List IterInput :=
  [ { queue := [Transaction.CreateAccount "alice" 18446744073709551615,
                Transaction.CreateAccount "bob" 5,
                Transaction.Transfer { sender := "bob", receiver := "alice", balance := 5 }],
      current_time := 2, after_mining_time := 2 } ]

/-! ### Helper lemmas -/

theorem lookupAcc_insertAcc (m : Accounts) (k : String) (v : Nat) (x : String) :
    lookupAcc (insertAcc m k v) x = if k = x then some v else lookupAcc m x := by
  induction m with
  | nil => simp [insertAcc, lookupAcc]
  | cons p rest ih =>
    obtain ⟨pk, pv⟩ := p
    by_cases h1 : pk = k
    · subst h1
      by_cases h2 : pk = x <;> simp [insertAcc, lookupAcc, h2]
    · by_cases h2 : pk = x
      · subst h2
        have : ¬ k = pk := fun h => h1 h.symm
        simp [insertAcc, lookupAcc, h1, this]
      · simp [insertAcc, lookupAcc, h1, h2, ih]

theorem drainQueue_append (accounts : Accounts) (transfers : List TransactionTransfer)
    (q1 q2 : List Transaction) :
    drainQueue accounts transfers (q1 ++ q2) =
      ((drainQueue (drainQueue accounts transfers q1).1
          (drainQueue accounts transfers q1).2.1 q2).1,
       (drainQueue (drainQueue accounts transfers q1).1
          (drainQueue accounts transfers q1).2.1 q2).2.1,
       (drainQueue accounts transfers q1).2.2 ++
         (drainQueue (drainQueue accounts transfers q1).1
            (drainQueue accounts transfers q1).2.1 q2).2.2) := by
  induction q1 generalizing accounts transfers with
  | nil => simp [drainQueue]
  | cons tx rest ih => simp [drainQueue, ih]

/-! ### Claim theorems -/

/-- C1: evaluation of the code at the failing input.  The transfer tC1,
admitted once before the first boundary, is recorded in block 0 and
again in block 1 (the pending list is never cleared after mining), and
alice is debited twice: 1000 - 100 - 100 = 800.  This refutes the
claim that an admitted transfer appears in exactly one future block. -/
theorem c1_transfer_recommitted :
    (runNode (BlockChain.new 1 0) [] traceC1).1.blocks.map Block.transactions =
        [[Transaction.Transfer tC1], [Transaction.Transfer tC1]] ∧
      lookupAcc (runNode (BlockChain.new 1 0) [] traceC1).1.accounts "alice" = some 800 := by
  decide

/-- C2: evaluation of the code at the failing input.  The second
CreateAccount for bob replies with the already-existing message naming
the old balance 1000, yet the stored balance has been overwritten to
500, refuting the claim that the existing balance is left unchanged. -/
theorem c2_second_create_overwrites :
    drainQueue [] [] [Transaction.CreateAccount "bob" 1000,
        Transaction.CreateAccount "bob" 500] =
      ([("bob", 500)], [], [Reply.created "bob" 1000, Reply.alreadyExisting "bob" 1000]) ∧
      lookupAcc (drainQueue [] []
          [Transaction.CreateAccount "bob" 1000, Transaction.CreateAccount "bob" 500]).1
          "bob" ≠ some 1000 := by
  decide

/-- C3: evaluation of the code at the failing input.  tC3b fails
commit-time validation at the first boundary and is indeed left out of
block 0 with the ledger untouched by it, but it stays in the pending
list, is re-validated at every later boundary, and commits into block
2 once tC3c has refilled alice, refuting the claim that a dropped
transfer is never retried in a future block. -/
theorem c3_dropped_transfer_retried :
    (runNode (BlockChain.new 1 0) [] traceC3).1.blocks.map Block.transactions =
        [[Transaction.Transfer tC3a], [Transaction.Transfer tC3c],
         [Transaction.Transfer tC3b, Transaction.Transfer tC3c]] ∧
      (runNode (BlockChain.new 1 0) [] traceC3).2.1 = [tC3a, tC3b, tC3c] := by
  decide

/-- C5: with alice at 1000 and bob and carol existing, the two
transfers of 600 admitted in the same interval both get the
accepted-for-next-block reply; at the boundary the first commits,
leaving alice at 400, the second fails commit-time validation and is
dropped, and the produced block records only the first. -/
theorem c5_double_spend_scenario :
    try_mining bcC5 2 2 [Transaction.Transfer tC5bob, Transaction.Transfer tC5carol] [] =
      ({ node_start_instant := 0
         duration_between_blocks := 1
         last_mining_time := 2
         blocks := [{ current_block_num := 0,
                      transactions := [Transaction.Transfer tC5bob] }]
         accounts := [("alice", 400), ("bob", 600), ("carol", 0)] },
       [tC5bob, tC5carol],
       [Reply.willAdd tC5bob, Reply.willAdd tC5carol]) := by
  decide

/-- C6 counterexample: sender alice exists with 100, the receiver ghost
does not exist and the funds are also insufficient for 200; the code
reports insufficient funds, not the unknown receiver the claim
predicts. -/
theorem c6_counterexample :
    can_transfer [("alice", 100)]
        { sender := "alice", receiver := "ghost", balance := 200 } =
        Except.error TransferErr.insufficientFunds ∧
      can_transfer [("alice", 100)]
        { sender := "alice", receiver := "ghost", balance := 200 } ≠
        Except.error TransferErr.missingReceiver := by
  decide

/-- C6 amended: for every ledger and transfer the admission check fails
with the unknown-sender error when the sender has no account, otherwise
with the insufficient-funds error when the sender balance is below the
amount, otherwise with the unknown-receiver error when the receiver
has no account, and succeeds otherwise: can_transfer agrees everywhere
with the amended-order reference definition. -/
theorem c6_admission_check_order (accounts : Accounts) (t : TransactionTransfer) :
    can_transfer accounts t = can_transfer_amended accounts t := by
  unfold can_transfer can_transfer_amended
  cases hs : lookupAcc accounts t.sender with
  | none => simp
  | some sb =>
    by_cases hle : t.balance ≤ sb
    · have : ¬ sb < t.balance := by omega
      cases hr : lookupAcc accounts t.receiver <;> simp [hle, this, hr]
    · have : sb < t.balance := by omega
      simp [hle, this]

/-- C7 counterexample: with interval 10 and the last block at time 0,
an iteration at time 10 has elapsed time equal to the interval; the
claim says a block is produced at elapsed >= interval, but the code
produces none. -/
theorem c7_counterexample :
    bcC7.duration_between_blocks ≤ 10 - bcC7.last_mining_time ∧
      (try_mining bcC7 10 10 [] []).1.blocks = [] := by
  decide

/-- C7 amended: on every iteration a block is produced if and only if
the elapsed time since the last block strictly exceeds the configured
interval; when produced, the block records the pending transfers
committed in admission order (the fold of the commit step over the
drained pending list) and the time reference is reset to the fresh
now reading taken after mining, otherwise block log and time reference
are unchanged. -/
theorem c7_mining_condition (bc : BlockChain) (current_time after_mining_time : Nat)
    (queue : List Transaction) (transfers : List TransactionTransfer) :
    (try_mining bc current_time after_mining_time queue transfers).1.blocks =
        (if bc.duration_between_blocks < current_time - bc.last_mining_time then
          bc.blocks ++ [{ current_block_num := bc.blocks.length,
                          transactions := (commitPending
                            (drainQueue bc.accounts transfers queue).1 []
                            (drainQueue bc.accounts transfers queue).2.1).2 }]
        else bc.blocks) ∧
      (try_mining bc current_time after_mining_time queue transfers).1.last_mining_time =
        (if bc.duration_between_blocks < current_time - bc.last_mining_time then
          after_mining_time
        else bc.last_mining_time) := by
  unfold try_mining
  split <;> simp

/-- C9: inserting a BalanceQuery anywhere in the drained queue changes
neither the resulting BlockChain state (ledger, block log, timing) nor
the pending transfer list of the iteration; the only difference is one
extra reply, which is the current balance when the account exists and
the not-found reply when it does not, read from the ledger as it
stands when the query is drained. -/
theorem c9_balance_query_pure (bc : BlockChain) (current_time after_mining_time : Nat)
    (q1 q2 : List Transaction) (transfers : List TransactionTransfer) (name : String) :
    (try_mining bc current_time after_mining_time
        (q1 ++ Transaction.Balance name :: q2) transfers).1 =
      (try_mining bc current_time after_mining_time (q1 ++ q2) transfers).1 ∧
    (try_mining bc current_time after_mining_time
        (q1 ++ Transaction.Balance name :: q2) transfers).2.1 =
      (try_mining bc current_time after_mining_time (q1 ++ q2) transfers).2.1 ∧
    (try_mining bc current_time after_mining_time
        (q1 ++ Transaction.Balance name :: q2) transfers).2.2 =
      (drainQueue bc.accounts transfers q1).2.2 ++
        (match lookupAcc (drainQueue bc.accounts transfers q1).1 name with
         | some val => Reply.balanceOf name val
         | none => Reply.noAccount name) ::
        (drainQueue (drainQueue bc.accounts transfers q1).1
          (drainQueue bc.accounts transfers q1).2.1 q2).2.2 := by
  have key : drainQueue bc.accounts transfers (q1 ++ Transaction.Balance name :: q2) =
      ((drainQueue (drainQueue bc.accounts transfers q1).1
          (drainQueue bc.accounts transfers q1).2.1 q2).1,
       (drainQueue (drainQueue bc.accounts transfers q1).1
          (drainQueue bc.accounts transfers q1).2.1 q2).2.1,
       (drainQueue bc.accounts transfers q1).2.2 ++
         (match lookupAcc (drainQueue bc.accounts transfers q1).1 name with
          | some val => Reply.balanceOf name val
          | none => Reply.noAccount name) ::
         (drainQueue (drainQueue bc.accounts transfers q1).1
           (drainQueue bc.accounts transfers q1).2.1 q2).2.2) := by
    rw [drainQueue_append]
    simp [drainQueue, processTransaction]
  have base := drainQueue_append bc.accounts transfers q1 q2
  refine ⟨?_, ?_, ?_⟩ <;> simp only [try_mining, key, base] <;> split <;> rfl

/-- C10: whenever the admission predicate can_transfer accepts a
transfer against a ledger, the commit-time mutation
transfer_between_accounts on that same ledger returns Ok (so its Err
branch, which debits the sender a second time, is unreachable) and the
resulting ledger is exactly the input with one debit of the amount at
the sender followed by one credit of the amount at the receiver,
provided the credit does not overflow u64. -/
theorem c10_commit_succeeds_after_admission (accounts : Accounts) (t : TransactionTransfer)
    (h : can_transfer accounts t = Except.ok ())
    (hov : (lookupAcc (insertAcc accounts t.sender
        ((lookupAcc accounts t.sender).getD 0 - t.balance)) t.receiver).getD 0 + t.balance
        < U64MOD) :
    transfer_between_accounts accounts t =
      (insertAcc
        (insertAcc accounts t.sender ((lookupAcc accounts t.sender).getD 0 - t.balance))
        t.receiver
        ((lookupAcc (insertAcc accounts t.sender
            ((lookupAcc accounts t.sender).getD 0 - t.balance)) t.receiver).getD 0
          + t.balance),
       true) := by
  unfold can_transfer at h
  cases hs : lookupAcc accounts t.sender with
  | none => rw [hs] at h; simp at h
  | some sb =>
    simp only [hs] at h
    by_cases hle : t.balance ≤ sb
    · rw [if_pos hle] at h
      cases hr : lookupAcc accounts t.receiver with
      | none => rw [hr] at h; simp at h
      | some rb =>
        obtain ⟨rb1, hrb1⟩ :
            ∃ rb1, lookupAcc (insertAcc accounts t.sender (sb - t.balance)) t.receiver =
              some rb1 := by
          rw [lookupAcc_insertAcc]
          split
          · exact ⟨sb - t.balance, rfl⟩
          · exact ⟨rb, hr⟩
        simp only [hs, Option.getD_some] at hov ⊢
        rw [hrb1] at hov
        simp only [Option.getD_some] at hov
        unfold transfer_between_accounts
        simp only [hs, Option.getD_some, hle, if_true, hrb1, Nat.mod_eq_of_lt hov]
    · rw [if_neg hle] at h; simp at h

/-- C10 witness: a concrete ledger and transfer satisfying both
hypotheses, with the conclusion instantiated. -/
theorem c10_commit_succeeds_after_admission_witness :
    can_transfer [("a", 10), ("b", 5)]
        { sender := "a", receiver := "b", balance := 3 } = Except.ok () ∧
      (lookupAcc (insertAcc [("a", 10), ("b", 5)] "a"
          ((lookupAcc [("a", 10), ("b", 5)] "a").getD 0 - 3)) "b").getD 0 + 3 < U64MOD ∧
      transfer_between_accounts [("a", 10), ("b", 5)]
          { sender := "a", receiver := "b", balance := 3 } =
        (insertAcc
          (insertAcc [("a", 10), ("b", 5)] "a" ((lookupAcc [("a", 10), ("b", 5)] "a").getD 0 - 3))
          "b"
          ((lookupAcc (insertAcc [("a", 10), ("b", 5)] "a"
              ((lookupAcc [("a", 10), ("b", 5)] "a").getD 0 - 3)) "b").getD 0 + 3),
         true) :=
  ⟨by decide, by decide,
   c10_commit_succeeds_after_admission [("a", 10), ("b", 5)]
     { sender := "a", receiver := "b", balance := 3 } (by decide) (by decide)⟩

theorem try_mining_blockNums (bc : BlockChain) (tE tA : Nat) (q : List Transaction)
    (tr : List TransactionTransfer)
    (h : bc.blocks.map Block.current_block_num = List.range bc.blocks.length) :
    (try_mining bc tE tA q tr).1.blocks.map Block.current_block_num =
      List.range (try_mining bc tE tA q tr).1.blocks.length := by
  unfold try_mining
  split
  · simp [h, List.range_succ]
  · simpa using h

theorem runNode_blockNums (inputs : List IterInput) (bc : BlockChain)
    (tr : List TransactionTransfer)
    (h : bc.blocks.map Block.current_block_num = List.range bc.blocks.length) :
    (runNode bc tr inputs).1.blocks.map Block.current_block_num =
      List.range (runNode bc tr inputs).1.blocks.length := by
  induction inputs generalizing bc tr with
  | nil => simpa using h
  | cons input rest ih =>
    simp only [runNode]
    exact ih _ _ (try_mining_blockNums _ _ _ _ _ h)

/-- C8: over any run of the node the block log numbers read 0, 1, 2,
... in order (each block number is the log length at its creation,
0-based, monotonically increasing, never reused), and at an elapsed
boundary a block is appended even when there is nothing to commit
(empty queue and empty pending list give a block with an empty
transaction list). -/
theorem c8_sequence_numbers (block_time start : Nat) (inputs : List IterInput) :
    ((runNode (BlockChain.new block_time start) [] inputs).1.blocks.map Block.current_block_num =
        List.range (runNode (BlockChain.new block_time start) [] inputs).1.blocks.length) ∧
      (∀ (bc : BlockChain) (tE tA : Nat),
        (try_mining bc tE tA [] []).1.blocks =
          if bc.duration_between_blocks < tE - bc.last_mining_time then
            bc.blocks ++ [{ current_block_num := bc.blocks.length, transactions := [] }]
          else bc.blocks) := by
  constructor
  · exact runNode_blockNums _ _ _ (by simp [BlockChain.new])
  · intro bc tE tA
    unfold try_mining
    split <;> simp [drainQueue, commitPending]

/-! ### C4: per-account flow accounting over a whole run -/

theorem can_transfer_ok_elim (accounts : Accounts) (t : TransactionTransfer)
    (h : can_transfer accounts t = Except.ok ()) :
    ∃ sb rb, lookupAcc accounts t.sender = some sb ∧ t.balance ≤ sb ∧
      lookupAcc accounts t.receiver = some rb := by
  unfold can_transfer at h
  cases hs : lookupAcc accounts t.sender with
  | none => rw [hs] at h; simp at h
  | some sb =>
    simp only [hs] at h
    by_cases hle : t.balance ≤ sb
    · rw [if_pos hle] at h
      cases hr : lookupAcc accounts t.receiver with
      | none => rw [hr] at h; simp at h
      | some rb => exact ⟨sb, rb, rfl, hle, rfl⟩
    · rw [if_neg hle] at h; simp at h

theorem modeq_chain (x0 x1 x2 o0 o1 o2 i0 i1 i2 s1 s2 : Nat)
    (h1 : x1 + o1 + i0 ≡ x0 + o0 + s1 + i1 [MOD U64MOD])
    (h2 : x2 + o2 + i1 ≡ x1 + o1 + s2 + i2 [MOD U64MOD]) :
    x2 + o2 + i0 ≡ x0 + o0 + (s1 + s2) + i2 [MOD U64MOD] := by
  unfold Nat.ModEq U64MOD at h1 h2 ⊢
  omega

theorem txFlowIn_append (a : String) (l1 l2 : List Transaction) :
    txFlowIn a (l1 ++ l2) = txFlowIn a l1 + txFlowIn a l2 := by
  induction l1 with
  | nil => simp [txFlowIn]
  | cons tx rest ih => cases tx <;> simp [txFlowIn, ih] <;> omega

theorem txFlowOut_append (a : String) (l1 l2 : List Transaction) :
    txFlowOut a (l1 ++ l2) = txFlowOut a l1 + txFlowOut a l2 := by
  induction l1 with
  | nil => simp [txFlowOut]
  | cons tx rest ih => cases tx <;> simp [txFlowOut, ih] <;> omega

theorem blocksFlowIn_append (a : String) (l1 l2 : List Block) :
    blocksFlowIn a (l1 ++ l2) = blocksFlowIn a l1 + blocksFlowIn a l2 := by
  induction l1 with
  | nil => simp [blocksFlowIn]
  | cons b rest ih => simp [blocksFlowIn, ih]; omega

theorem blocksFlowOut_append (a : String) (l1 l2 : List Block) :
    blocksFlowOut a (l1 ++ l2) = blocksFlowOut a l1 + blocksFlowOut a l2 := by
  induction l1 with
  | nil => simp [blocksFlowOut]
  | cons b rest ih => simp [blocksFlowOut, ih]; omega

theorem transfer_identity (accounts : Accounts) (blockTxs : List Transaction)
    (t : TransactionTransfer) (a : String) :
    bal (transfer accounts blockTxs t).1 a
      + txFlowOut a (transfer accounts blockTxs t).2.1 + txFlowIn a blockTxs ≡
    bal accounts a + txFlowOut a blockTxs
      + txFlowIn a (transfer accounts blockTxs t).2.1 [MOD U64MOD] := by
  unfold transfer
  cases hct : can_transfer accounts t with
  | error e => exact Nat.ModEq.refl _
  | ok u =>
    cases u
    obtain ⟨sb, rb, hs, hle, hr⟩ := can_transfer_ok_elim accounts t hct
    have hrb1 : lookupAcc (insertAcc accounts t.sender (sb - t.balance)) t.receiver =
        some (if t.sender = t.receiver then sb - t.balance else rb) := by
      rw [lookupAcc_insertAcc]
      by_cases hsr : t.sender = t.receiver
      · simp [hsr]
      · simp [hsr, hr]
    have hok : transfer_between_accounts accounts t =
        (insertAcc (insertAcc accounts t.sender (sb - t.balance)) t.receiver
          (((if t.sender = t.receiver then sb - t.balance else rb) + t.balance) % U64MOD),
         true) := by
      unfold transfer_between_accounts
      simp only [hs, hle, if_true, hrb1]
    simp only [hok, if_true]
    simp only [bal, lookupAcc_insertAcc, txFlowOut_append, txFlowIn_append,
      txFlowOut, txFlowIn]
    by_cases hra : t.receiver = a
    · by_cases hsa : t.sender = a
      · have hsr : t.sender = t.receiver := hsa.trans hra.symm
        have hsA : lookupAcc accounts a = some sb := hsa ▸ hs
        simp [hra, hsa, hsr, hsA]
        unfold Nat.ModEq U64MOD
        omega
      · have hsr : ¬ t.sender = t.receiver := fun hcontra => hsa (hcontra.trans hra)
        have hrA : lookupAcc accounts a = some rb := hra ▸ hr
        simp [hra, hsa, hsr, hrA]
        unfold Nat.ModEq U64MOD
        omega
    · by_cases hsa : t.sender = a
      · have hsA : lookupAcc accounts a = some sb := hsa ▸ hs
        simp [hra, hsa, hsA]
        unfold Nat.ModEq U64MOD
        omega
      · simp [hra, hsa]
        unfold Nat.ModEq U64MOD
        omega

theorem commitPending_identity (pending : List TransactionTransfer) (accounts : Accounts)
    (blockTxs : List Transaction) (a : String) :
    bal (commitPending accounts blockTxs pending).1 a
      + txFlowOut a (commitPending accounts blockTxs pending).2 + txFlowIn a blockTxs ≡
    bal accounts a + txFlowOut a blockTxs
      + txFlowIn a (commitPending accounts blockTxs pending).2 [MOD U64MOD] := by
  induction pending generalizing accounts blockTxs with
  | nil => exact Nat.ModEq.refl _
  | cons t rest ih =>
    simp only [commitPending]
    have h1 := transfer_identity accounts blockTxs t a
    have h2 := ih (transfer accounts blockTxs t).1 (transfer accounts blockTxs t).2.1
    have := modeq_chain (bal accounts a) (bal (transfer accounts blockTxs t).1 a)
      (bal (commitPending (transfer accounts blockTxs t).1
        (transfer accounts blockTxs t).2.1 rest).1 a)
      (txFlowOut a blockTxs) (txFlowOut a (transfer accounts blockTxs t).2.1)
      (txFlowOut a (commitPending (transfer accounts blockTxs t).1
        (transfer accounts blockTxs t).2.1 rest).2)
      (txFlowIn a blockTxs) (txFlowIn a (transfer accounts blockTxs t).2.1)
      (txFlowIn a (commitPending (transfer accounts blockTxs t).1
        (transfer accounts blockTxs t).2.1 rest).2)
      0 0 (by simpa using h1) (by simpa using h2)
    simpa using this

theorem drainQueue_bal (q : List Transaction) (accounts : Accounts)
    (transfers : List TransactionTransfer) (a : String)
    (hnodup : (queueCreateNames q).Nodup)
    (hfresh : ∀ n ∈ queueCreateNames q, lookupAcc accounts n = none) :
    bal (drainQueue accounts transfers q).1 a = bal accounts a + queueCreateSum a q := by
  induction q generalizing accounts transfers with
  | nil => simp [drainQueue, queueCreateSum]
  | cons tx rest ih =>
    cases tx with
    | Balance name =>
      simp only [drainQueue, processTransaction, queueCreateSum]
      exact ih accounts transfers hnodup hfresh
    | Transfer t =>
      simp only [drainQueue, processTransaction, queueCreateSum]
      cases hct : can_transfer accounts t with
      | ok u => exact ih accounts (transfers ++ [t]) hnodup hfresh
      | error e => exact ih accounts transfers hnodup hfresh
    | CreateAccount name balance =>
      have hnames : queueCreateNames (Transaction.CreateAccount name balance :: rest) =
          name :: queueCreateNames rest := rfl
      rw [hnames] at hnodup hfresh
      have hnotrest : name ∉ queueCreateNames rest := (List.nodup_cons.mp hnodup).1
      have hrestnodup : (queueCreateNames rest).Nodup := (List.nodup_cons.mp hnodup).2
      have hnone : lookupAcc accounts name = none := hfresh name (List.mem_cons_self _ _)
      have hfresh1 : ∀ n ∈ queueCreateNames rest,
          lookupAcc (insertAcc accounts name balance) n = none := by
        intro n hn
        rw [lookupAcc_insertAcc]
        have hne : ¬ name = n := fun hcontra => hnotrest (hcontra ▸ hn)
        rw [if_neg hne]
        exact hfresh n (List.mem_cons_of_mem _ hn)
      simp only [drainQueue, processTransaction, queueCreateSum]
      rw [ih (insertAcc accounts name balance) transfers hrestnodup hfresh1]
      unfold bal
      rw [lookupAcc_insertAcc]
      by_cases hna : name = a
      · have hnoneA : lookupAcc accounts a = none := hna ▸ hnone
        simp [hna, hnoneA]
      · rw [if_neg hna, if_neg hna]
        omega

theorem drainQueue_keys (q : List Transaction) (accounts : Accounts)
    (transfers : List TransactionTransfer) (x : String)
    (h : lookupAcc (drainQueue accounts transfers q).1 x ≠ none) :
    lookupAcc accounts x ≠ none ∨ x ∈ queueCreateNames q := by
  induction q generalizing accounts transfers with
  | nil => exact Or.inl (by simpa [drainQueue] using h)
  | cons tx rest ih =>
    cases tx with
    | Balance name =>
      simp only [drainQueue, processTransaction] at h
      simpa [queueCreateNames] using ih accounts transfers h
    | Transfer t =>
      simp only [drainQueue, processTransaction] at h
      cases hct : can_transfer accounts t with
      | ok u =>
        rw [hct] at h
        simpa [queueCreateNames] using ih accounts (transfers ++ [t]) h
      | error e =>
        rw [hct] at h
        simpa [queueCreateNames] using ih accounts transfers h
    | CreateAccount name balance =>
      simp only [drainQueue, processTransaction] at h
      rcases ih (insertAcc accounts name balance) transfers h with h1 | h2
      · rw [lookupAcc_insertAcc] at h1
        by_cases hnx : name = x
        · exact Or.inr (by simp [queueCreateNames, hnx])
        · rw [if_neg hnx] at h1
          exact Or.inl h1
      · exact Or.inr (by simp [queueCreateNames, h2])

theorem transfer_keys (accounts : Accounts) (blockTxs : List Transaction)
    (t : TransactionTransfer) (x : String)
    (h : lookupAcc (transfer accounts blockTxs t).1 x ≠ none) :
    lookupAcc accounts x ≠ none := by
  unfold transfer at h
  cases hct : can_transfer accounts t with
  | error e => rw [hct] at h; exact h
  | ok u =>
    cases u
    rw [hct] at h
    obtain ⟨sb, rb, hs, hle, hr⟩ := can_transfer_ok_elim accounts t hct
    have hrb1 : lookupAcc (insertAcc accounts t.sender (sb - t.balance)) t.receiver =
        some (if t.sender = t.receiver then sb - t.balance else rb) := by
      rw [lookupAcc_insertAcc]
      by_cases hsr : t.sender = t.receiver
      · simp [hsr]
      · simp [hsr, hr]
    have hok : transfer_between_accounts accounts t =
        (insertAcc (insertAcc accounts t.sender (sb - t.balance)) t.receiver
          (((if t.sender = t.receiver then sb - t.balance else rb) + t.balance) % U64MOD),
         true) := by
      unfold transfer_between_accounts
      simp only [hs, hle, if_true, hrb1]
    simp only [hok, if_true, lookupAcc_insertAcc] at h
    by_cases hrx : t.receiver = x
    · rw [← hrx]; simp [hr]
    · rw [if_neg hrx] at h
      by_cases hsx : t.sender = x
      · rw [← hsx]; simp [hs]
      · rwa [if_neg hsx] at h

theorem commitPending_keys (pending : List TransactionTransfer) (accounts : Accounts)
    (blockTxs : List Transaction) (x : String)
    (h : lookupAcc (commitPending accounts blockTxs pending).1 x ≠ none) :
    lookupAcc accounts x ≠ none := by
  induction pending generalizing accounts blockTxs with
  | nil => simpa [commitPending] using h
  | cons t rest ih =>
    simp only [commitPending] at h
    exact transfer_keys accounts blockTxs t x
      (ih (transfer accounts blockTxs t).1 (transfer accounts blockTxs t).2.1 h)

theorem try_mining_identity (bc : BlockChain) (tE tA : Nat) (q : List Transaction)
    (transfers : List TransactionTransfer) (a : String)
    (hnodup : (queueCreateNames q).Nodup)
    (hfresh : ∀ n ∈ queueCreateNames q, lookupAcc bc.accounts n = none) :
    bal (try_mining bc tE tA q transfers).1.accounts a
      + blocksFlowOut a (try_mining bc tE tA q transfers).1.blocks
      + blocksFlowIn a bc.blocks ≡
    bal bc.accounts a + blocksFlowOut a bc.blocks + queueCreateSum a q
      + blocksFlowIn a (try_mining bc tE tA q transfers).1.blocks [MOD U64MOD] := by
  have hd := drainQueue_bal q bc.accounts transfers a hnodup hfresh
  unfold try_mining
  split
  · have hc := commitPending_identity (drainQueue bc.accounts transfers q).2.1
      (drainQueue bc.accounts transfers q).1 [] a
    simp only [txFlowIn, txFlowOut, Nat.add_zero] at hc
    simp only [blocksFlowOut_append, blocksFlowIn_append, blocksFlowOut, blocksFlowIn]
    rw [hd] at hc
    unfold Nat.ModEq U64MOD at hc ⊢
    omega
  · simp only []
    rw [hd]
    unfold Nat.ModEq U64MOD
    omega

theorem try_mining_keys (bc : BlockChain) (tE tA : Nat) (q : List Transaction)
    (transfers : List TransactionTransfer) (x : String)
    (h : lookupAcc (try_mining bc tE tA q transfers).1.accounts x ≠ none) :
    lookupAcc bc.accounts x ≠ none ∨ x ∈ queueCreateNames q := by
  unfold try_mining at h
  by_cases hcond : bc.duration_between_blocks < tE - bc.last_mining_time
  · rw [if_pos hcond] at h
    simp only [] at h
    exact drainQueue_keys q bc.accounts transfers x
      (commitPending_keys (drainQueue bc.accounts transfers q).2.1
        (drainQueue bc.accounts transfers q).1 [] x h)
  · rw [if_neg hcond] at h
    simp only [] at h
    exact drainQueue_keys q bc.accounts transfers x h

theorem runNode_identity (inputs : List IterInput) (bc : BlockChain)
    (transfers : List TransactionTransfer) (past : List String) (a : String)
    (hnodup : (past ++ traceCreateNames inputs).Nodup)
    (hkeys : ∀ x, lookupAcc bc.accounts x ≠ none → x ∈ past) :
    bal (runNode bc transfers inputs).1.accounts a
      + blocksFlowOut a (runNode bc transfers inputs).1.blocks
      + blocksFlowIn a bc.blocks ≡
    bal bc.accounts a + blocksFlowOut a bc.blocks + traceCreateSum a inputs
      + blocksFlowIn a (runNode bc transfers inputs).1.blocks [MOD U64MOD] := by
  induction inputs generalizing bc transfers past with
  | nil =>
    simp only [runNode, traceCreateSum]
    unfold Nat.ModEq U64MOD
    omega
  | cons input rest ih =>
    have hassoc : past ++ traceCreateNames (input :: rest) =
        (past ++ queueCreateNames input.queue) ++ traceCreateNames rest := by
      simp [traceCreateNames, List.append_assoc]
    rw [hassoc] at hnodup
    have hpq : (past ++ queueCreateNames input.queue).Nodup := hnodup.of_append_left
    have hqnodup : (queueCreateNames input.queue).Nodup := hpq.of_append_right
    have hdisj : past.Disjoint (queueCreateNames input.queue) :=
      List.disjoint_of_nodup_append hpq
    have hfresh : ∀ n ∈ queueCreateNames input.queue, lookupAcc bc.accounts n = none := by
      intro n hn
      cases hl : lookupAcc bc.accounts n with
      | none => rfl
      | some v =>
        exact absurd hn (hdisj (hkeys n (by simp [hl])))
    have step := try_mining_identity bc input.current_time input.after_mining_time
      input.queue transfers a hqnodup hfresh
    have hkeys1 : ∀ x,
        lookupAcc (try_mining bc input.current_time input.after_mining_time
          input.queue transfers).1.accounts x ≠ none →
        x ∈ past ++ queueCreateNames input.queue := by
      intro x hx
      rcases try_mining_keys bc input.current_time input.after_mining_time
        input.queue transfers x hx with h1 | h2
      · exact List.mem_append_left _ (hkeys x h1)
      · exact List.mem_append_right _ h2
    have tail := ih (try_mining bc input.current_time input.after_mining_time
        input.queue transfers).1
      (try_mining bc input.current_time input.after_mining_time input.queue transfers).2.1
      (past ++ queueCreateNames input.queue) hnodup hkeys1
    simp only [runNode, traceCreateSum]
    exact modeq_chain
      (bal bc.accounts a)
      (bal (try_mining bc input.current_time input.after_mining_time
        input.queue transfers).1.accounts a)
      (bal (runNode (try_mining bc input.current_time input.after_mining_time
          input.queue transfers).1
        (try_mining bc input.current_time input.after_mining_time
          input.queue transfers).2.1 rest).1.accounts a)
      (blocksFlowOut a bc.blocks)
      (blocksFlowOut a (try_mining bc input.current_time input.after_mining_time
        input.queue transfers).1.blocks)
      (blocksFlowOut a (runNode (try_mining bc input.current_time input.after_mining_time
          input.queue transfers).1
        (try_mining bc input.current_time input.after_mining_time
          input.queue transfers).2.1 rest).1.blocks)
      (blocksFlowIn a bc.blocks)
      (blocksFlowIn a (try_mining bc input.current_time input.after_mining_time
        input.queue transfers).1.blocks)
      (blocksFlowIn a (runNode (try_mining bc input.current_time input.after_mining_time
          input.queue transfers).1
        (try_mining bc input.current_time input.after_mining_time
          input.queue transfers).2.1 rest).1.blocks)
      (queueCreateSum a input.queue) (traceCreateSum a rest) step tail

/-- C4 counterexample: two runs refuting the integer accounting
identity as stated.  First, creating alice twice (5 then 7) leaves the
balance at 7 with no committed transfers, not at the initial balance
5.  Second, with alice created at 2 ^ 64 - 1 and a committed incoming
transfer of 5, the u64 credit wraps and the balance reads 4 instead of
2 ^ 64 + 4. -/
theorem c4_counterexample :
    (lookupAcc (runNode (BlockChain.new 1 0) [] traceC4dup).1.accounts "alice" = some 7 ∧
      blocksFlowIn "alice" (runNode (BlockChain.new 1 0) [] traceC4dup).1.blocks = 0 ∧
      blocksFlowOut "alice" (runNode (BlockChain.new 1 0) [] traceC4dup).1.blocks = 0 ∧
      (7 : Nat) ≠ 5 + 0 - 0) ∧
    (lookupAcc (runNode (BlockChain.new 1 0) [] traceC4ov).1.accounts "alice" = some 4 ∧
      blocksFlowIn "alice" (runNode (BlockChain.new 1 0) [] traceC4ov).1.blocks = 5 ∧
      blocksFlowOut "alice" (runNode (BlockChain.new 1 0) [] traceC4ov).1.blocks = 0 ∧
      (4 : Nat) ≠ 18446744073709551615 + 5 - 0) := by
  decide

/-- C4 amended: over any run of the node in which no CreateAccount
targets a name that was already created, every account name a
satisfies balance(a) + sum of committed outgoing transfers of a
congruent, modulo 2 ^ 64 (u64 wrapping arithmetic), to the sum of the
initial balances given to a at creation plus the sum of committed
incoming transfers of a; balances are unsigned and never negative. -/
theorem c4_balance_accounting (block_time start : Nat) (inputs : List IterInput)
    (a : String) (hfresh : (traceCreateNames inputs).Nodup) :
    (bal (runNode (BlockChain.new block_time start) [] inputs).1.accounts a
        + blocksFlowOut a (runNode (BlockChain.new block_time start) [] inputs).1.blocks ≡
      traceCreateSum a inputs
        + blocksFlowIn a (runNode (BlockChain.new block_time start) [] inputs).1.blocks
        [MOD U64MOD]) ∧
      0 ≤ bal (runNode (BlockChain.new block_time start) [] inputs).1.accounts a := by
  constructor
  · have h := runNode_identity inputs (BlockChain.new block_time start) [] [] a
      (by simpa using hfresh)
      (by intro x hx; exact absurd rfl hx)
    simp only [BlockChain.new] at h
    simp only [blocksFlowIn, blocksFlowOut, bal, lookupAcc, Option.getD_none,
      Nat.add_zero, Nat.zero_add] at h
    simpa [bal] using h
  · exact Nat.zero_le _

/-- C4 witness: a concrete run with two fresh creations and one
committed transfer, discharging the freshness hypothesis. -/
theorem c4_balance_accounting_witness :
    (traceCreateNames traceC4w).Nodup ∧
      ((bal (runNode (BlockChain.new 1 0) [] traceC4w).1.accounts "alice"
          + blocksFlowOut "alice" (runNode (BlockChain.new 1 0) [] traceC4w).1.blocks ≡
        traceCreateSum "alice" traceC4w
          + blocksFlowIn "alice" (runNode (BlockChain.new 1 0) [] traceC4w).1.blocks
          [MOD U64MOD]) ∧
        0 ≤ bal (runNode (BlockChain.new 1 0) [] traceC4w).1.accounts "alice") :=
  ⟨by decide, c4_balance_accounting 1 0 traceC4w "alice" (by decide)⟩
